import Mathlib

/-!
# Leech: coordinator (`server.c`) and agent (`client.c`)

A shallow embedding of the two C programs of the repository and the
properties of the coordinator registry, the operator command router, the
handshake and the agent's line reader.

Modelling conventions.

* A C string is the list of its characters before the terminating NUL.
* A byte stream (a socket or `stdin`) is the list of bytes still to be read;
  a read on an empty stream is the read that returns `0` (peer closed, end of
  input).  A read on a non-empty stream returns as many bytes as the buffer
  takes, and `send` delivers the whole message.
* A `Client *` is the address of the record (`Client.ptr`); the linked list
  `clients` is the list of the live records from its head.
* `int` is 32 bits wide; `next_id++` wraps modulo `2^32` (two's complement).
* Console output (`printf`) is not part of the model.
-/

namespace Leech

/-! ## libc -/

/-- The macro `BUFFER_SIZE` of both programs. -/
def BUFFER_SIZE : Nat := 1024

/-- The NUL byte. -/
def NUL : Char := Char.ofNat 0

/-- The C string held in a buffer: the bytes before the first NUL. -/
def cstr (buf : List Char) : List Char :=
  buf.takeWhile (fun c => c != NUL)

/-- The string left by `s[strcspn(s, reject)] = 0`. -/
def strcspn_cut (s reject : List Char) : List Char :=
  (cstr s).takeWhile (fun c => !(reject.contains c))

/-- The string left in `dst` by `strncpy(dst, src, n); dst[n] = 0`. -/
def strncpy (n : Nat) (src : List Char) : List Char :=
  (cstr src).take n

/-- The string left in `buf` by `snprintf(buf, size, "%s\n", s)`: at most
`size - 1` bytes of `s` followed by a newline. -/
def snprintf_line (size : Nat) (s : List Char) : List Char :=
  (s ++ ['\n']).take (size - 1)

/-- The loop of `fgets`: reads at most `n` bytes, stopping after a newline. -/
def fgets_loop : Nat → List Char → List Char × List Char
  | 0, s => ([], s)
  | _ + 1, [] => ([], [])
  | n + 1, c :: s =>
    if c = '\n' then ([c], s)
    else ((fgets_loop n s).1.cons c, (fgets_loop n s).2)

/-- The call `fgets(buf, size, stdin)`: `none` at end of input, else the bytes
stored in `buf` and the input left. -/
def fgets (size : Nat) (inp : List Char) : Option (List Char × List Char) :=
  if inp = [] then none else some (fgets_loop (size - 1) inp)

/-- The function `isdigit`. -/
def isdigit (c : Char) : Bool := decide ('0' ≤ c) && decide (c ≤ '9')

/-- The value of the digits at the start of a string. -/
def digits_value : Nat → List Char → Nat
  | acc, [] => acc
  | acc, c :: s => if isdigit c then digits_value (acc * 10 + (c.toNat - 48)) s else acc

/-- A value reduced to the range of a 32-bit `int`. -/
def int_wrap (x : Int) : Int :=
  (x + 2147483648) % 4294967296 - 2147483648

/-- The call `atoi(key)` on a string that starts with a digit (the only call
in `find_client`): the value of the leading digits, which `strtol` caps at
`LONG_MAX`, converted to `int`. -/
def atoi (key : List Char) : Int :=
  int_wrap (min (digits_value 0 key) 9223372036854775807)

/-! ## server.c -/

/-- The struct `Client`: `ptr` is the address of the record, `sock` its socket
descriptor; the fields `addr` and `thread` are never read by the code below. -/
structure Client where
  ptr : Nat
  id : Int
  sock : Nat
  username : List Char
deriving DecidableEq, Repr

/-- The globals of `server.c` and the effects on the sockets: `sent` lists the
calls `send(sock, data)` and `closed` the calls `close(sock)`, oldest first;
`running` is false once `main` has left its command loop. -/
structure Server where
  clients : List Client
  current : Option Nat
  next_id : Int
  sent : List (Nat × List Char)
  closed : List Nat
  running : Bool
deriving DecidableEq, Repr

/-- The state at the start of `main`. -/
def Server.init : Server :=
  { clients := [], current := none, next_id := 1, sent := [], closed := [], running := true }

/-- The function `add_client`: the record becomes the head of the list. -/
def add_client (s : Server) (c : Client) : Server :=
  { s with clients := c :: s.clients }

/-- The walk of `remove_client` along the list: the first node at address `p`
is unlinked. -/
def unlink (p : Nat) : List Client → List Client × Option Client
  | [] => ([], none)
  | c :: cs =>
    if c.ptr = p then (cs, some c)
    else (c :: (unlink p cs).1, (unlink p cs).2)

/-- The function `remove_client`: unlinks the record and closes its socket. -/
def remove_client (s : Server) (p : Nat) : Server :=
  match (unlink p s.clients).2 with
  | some c => { s with clients := (unlink p s.clients).1, closed := s.closed ++ [c.sock] }
  | none => s

/-- The record a live pointer points to. -/
def deref (s : Server) (p : Nat) : Option Client :=
  s.clients.find? (fun c => c.ptr == p)

/-- The function `send_to_one`: nothing for a NULL pointer; `none` is the
read of a record that is not live (undefined behaviour). -/
def send_to_one (s : Server) (c : Option Nat) (cmd : List Char) : Option Server :=
  match c with
  | none => some s
  | some p =>
    match deref s p with
    | some r => some { s with sent := s.sent ++ [(r.sock, cmd)] }
    | none => none

/-- The function `broadcast_cmd`: one `send` per record, from the head. -/
def broadcast_cmd (s : Server) (cmd : List Char) : Server :=
  { s with sent := s.sent ++ s.clients.map (fun c => (c.sock, cmd)) }

/-- The end of `client_reader`, once `recv` has returned `0` or an error on
the socket of the record at `p`. -/
def client_reader (s : Server) (p : Nat) : Server :=
  remove_client (if s.current = some p then { s with current := none } else s) p

/-- One round of `accept_loop` after a successful `accept`: `cl` is the new
socket, `pending` the bytes the agent has sent on it, `p` the address
returned by `malloc`.  Returns the record created, if any. -/
def accept_loop (s : Server) (cl p : Nat) (pending : List Char) : Server × Option Client :=
  if pending.take 63 = [] then
    ({ s with closed := s.closed ++ [cl] }, none)
  else
    let c : Client :=
      { ptr := p, id := s.next_id, sock := cl,
        username := strncpy 63 (strcspn_cut (pending.take 63) ['\r', '\n']) }
    (add_client { s with next_id := int_wrap (s.next_id + 1) } c, some c)

/-- The search of `find_client` by id. -/
def find_by_id (id : Int) (cs : List Client) : Option Client :=
  cs.find? (fun c => decide (c.id = id))

/-- The search of `find_client` by name. -/
def find_by_name (key : List Char) (cs : List Client) : Option Client :=
  cs.find? (fun c => decide (c.username = key))

/-- The function `find_client`. -/
def find_client (cs : List Client) (key : List Char) : Option Client :=
  if (key.head?.map isdigit).getD false then
    match find_by_id (atoi key) cs with
    | some c => some c
    | none => find_by_name key cs
  else find_by_name key cs

/-- The body of the command loop of `main` for the string `line` (the input
line without its newline). -/
def main_body (s : Server) (line : List Char) : Option Server :=
  if line = [] then some s
  else if line = ['e', 'x', 'i', 't'] then
    some { broadcast_cmd s ['e', 'x', 'i', 't', '\n'] with running := false }
  else if line = ['l', 'i', 's', 't'] then some s
  else if line.take 4 = ['u', 's', 'e', ' '] then
    match find_client s.clients (line.drop 4) with
    | none => some s
    | some c => some { s with current := some c.ptr }
  else if line.take 4 = ['a', 'l', 'l', ' '] then
    some (broadcast_cmd s (snprintf_line BUFFER_SIZE (line.drop 4)))
  else if 1 < s.clients.length ∧ s.current = none then some s
  else
    let s1 : Server :=
      if s.clients.length = 1 ∧ s.current = none then
        { s with current := s.clients.head?.map (fun c => c.ptr) }
      else s
    send_to_one s1 s1.current (snprintf_line BUFFER_SIZE line)

/-- The line the command loop works on: `fgets(line, sizeof(line), stdin)`
then `line[strcspn(line, "\n")] = 0`. -/
def read_line (inp : List Char) : Option (List Char) :=
  (fgets BUFFER_SIZE inp).map (fun r => strcspn_cut r.1 ['\n'])

/-- One round of the command loop of `main` with `inp` waiting on `stdin`;
at end of input the loop is left. -/
def main_iter (s : Server) (inp : List Char) : Option Server :=
  match read_line inp with
  | none => some { s with running := false }
  | some line => main_body s line

/-- The steps of the coordinator, one thread at a time. -/
inductive Event where
  | connect (cl p : Nat) (pending : List Char)
  | disconnect (p : Nat)
  | operator (inp : List Char)
deriving DecidableEq, Repr

/-- One step; nothing happens once the process has exited. -/
def step (s : Server) (e : Event) : Option Server :=
  if s.running then
    match e with
    | .connect cl p pending => some (accept_loop s cl p pending).1
    | .disconnect p => some (client_reader s p)
    | .operator inp => main_iter s inp
  else some s

/-- A sequence of steps. -/
def run (s : Server) : List Event → Option Server
  | [] => some s
  | e :: es => (step s e).bind (fun t => run t es)

/-! ## client.c -/

/-- The result of `recv_line`: the value returned, the bytes stored in `buf`
and the stream left on the socket. -/
structure RecvLine where
  n : Int
  buf : List Char
  rest : List Char
deriving DecidableEq, Repr

/-- The call `recv(sock, &c, 1, 0)`: `none` when it returns `0` (or an error),
else the byte read and the stream left. -/
def recv_byte : List Char → Option (Char × List Char)
  | [] => none
  | c :: s => some (c, s)

/-- The loop of `recv_line` with `k = maxlen - 1 - total` rounds left before
the buffer is full; each round reads one byte with `recv`. -/
def recv_line_loop : Nat → List Char → List Char → RecvLine
  | 0, buf, s => ⟨buf.length, buf, s⟩
  | k + 1, buf, s =>
    match recv_byte s with
    | none => ⟨0, buf, s⟩
    | some (c, s1) =>
      if c = '\n' then ⟨buf.length, buf, s1⟩
      else recv_line_loop k (buf ++ [c]) s1

/-- The function `recv_line` on the stream `s`. -/
def recv_line (s : List Char) (maxlen : Nat) : RecvLine :=
  recv_line_loop (maxlen - 1) [] s

/-- What `handle_cmd` runs: `background cmd` is the branch that forks and
execs the terminal emulator on `cmd`, `foreground cmd` the branch that calls
`popen(cmd)`. -/
inductive Launch where
  | background (cmd : List Char)
  | foreground (cmd : List Char)
deriving DecidableEq, Repr

/-- The loop `while (len>1 && cmd[len-1]==' ') cmd[--len] = 0` of
`handle_cmd`: the final value of `len`. -/
def trim_loop (cmd : List Char) : Nat → Nat
  | 0 => 0
  | len + 1 =>
    if 1 < len + 1 ∧ cmd.get? len = some ' ' then trim_loop cmd len else len + 1

/-- The function `handle_cmd` on the string `cmd`. -/
def handle_cmd (cmd : List Char) : Launch :=
  if 1 < cmd.length ∧ cmd.get? (cmd.length - 1) = some '&' then
    .background (cmd.take (trim_loop cmd (cmd.length - 1)))
  else .foreground cmd

/-- The message `main` sends after connecting:
`snprintf(unb, sizeof(unb), "%s\n", username)`. -/
def client_handshake (username : List Char) : List Char :=
  snprintf_line BUFFER_SIZE (cstr username)

/-- How the command read loop of `main` is left: `disconnected` is the
`break` (close, sleep, reconnect), `exited` the `return 0` on the line
`exit`; `reading` says the rounds counted were not enough. -/
inductive Leave where
  | disconnected
  | exited
  | reading
deriving DecidableEq, Repr

/-- The outcome of the command read loop: the strings handed to `handle_cmd`
threads, oldest first, how the loop was left and the bytes not yet read. -/
structure Session where
  cmds : List (List Char)
  leave : Leave
  unread : List Char
deriving DecidableEq, Repr

/-- The command read loop of `main`, for at most `fuel` rounds. -/
def client_main_loop : Nat → List Char → List (List Char) → Session
  | 0, s, cmds => ⟨cmds, .reading, s⟩
  | fuel + 1, s, cmds =>
    if (recv_line s BUFFER_SIZE).n ≤ 0 then
      ⟨cmds, .disconnected, (recv_line s BUFFER_SIZE).rest⟩
    else if cstr (recv_line s BUFFER_SIZE).buf = ['e', 'x', 'i', 't'] then
      ⟨cmds, .exited, (recv_line s BUFFER_SIZE).rest⟩
    else
      client_main_loop fuel (recv_line s BUFFER_SIZE).rest
        (cmds ++ [cstr (recv_line s BUFFER_SIZE).buf])

/-- The command read loop of `main` on the stream `s`; every round but the
last reads at least one byte, so `s.length + 1` rounds are enough. -/
def client_main (s : List Char) : Session :=
  client_main_loop (s.length + 1) s []

/-! ## Notions used by the statements -/

/-- The test that sends a line of the command loop to its last branch, the
command for the selected agent: the line is not empty, is not `exit` or
`list` and does not start with `use ` or `all `. -/
def is_implicit (line : List Char) : Prop :=
  line ≠ [] ∧ line ≠ ['e', 'x', 'i', 't'] ∧ line ≠ ['l', 'i', 's', 't']
    ∧ line.take 4 ≠ ['u', 's', 'e', ' '] ∧ line.take 4 ≠ ['a', 'l', 'l', ' ']

instance is_implicit_decidable (line : List Char) : Decidable (is_implicit line) :=
  inferInstanceAs (Decidable (line ≠ [] ∧ line ≠ ['e', 'x', 'i', 't'] ∧ line ≠ ['l', 'i', 's', 't']
    ∧ line.take 4 ≠ ['u', 's', 'e', ' '] ∧ line.take 4 ≠ ['a', 'l', 'l', ' ']))

/-- The cursor invariant: `current` is NULL or the address of a record of the
registry. -/
def cursor_valid (s : Server) : Prop :=
  ∀ p, s.current = some p → ∃ c ∈ s.clients, c.ptr = p

/-- The record created by a step, if any: the one `accept_loop` allocates. -/
def created (s : Server) : Event → Option Client
  | .connect cl p pending => if s.running then (accept_loop s cl p pending).2 else none
  | .disconnect _ => none
  | .operator _ => none

/-- The ids given to the records created along a sequence of steps, oldest
first. -/
def assigned_ids (s : Server) : List Event → List Int
  | [] => []
  | e :: es =>
    ((created s e).map (fun c => c.id)).toList ++
      (match step s e with
        | some t => assigned_ids t es
        | none => [])

/-- The number of connections accepted in a sequence of steps. -/
def connects : List Event → Nat
  | [] => 0
  | .connect _ _ _ :: es => connects es + 1
  | .disconnect _ :: es => connects es
  | .operator _ :: es => connects es

/-- The sequence in which an agent connects and disconnects again, `n` times. -/
def churn : Nat → List Event
  | 0 => []
  | n + 1 => .connect 3 7 ['a', '\n'] :: .disconnect 7 :: churn n

/-- The values returned and the lines stored by `k` successive calls of
`recv_line` with the buffer of `main` on the stream `s`. -/
def recv_lines : Nat → List Char → List (Int × List Char)
  | 0, _ => []
  | k + 1, s =>
    ((recv_line s BUFFER_SIZE).n, (recv_line s BUFFER_SIZE).buf)
      :: recv_lines k (recv_line s BUFFER_SIZE).rest

/-- The lines of a stream as the specification describes them, with `line`
the bytes of the line being read: each byte sequence ended by a newline is
one line, without the newline, cut to at most `limit` bytes; what is cut off
is dropped. -/
def spec_lines_from (limit : Nat) : List Char → List Char → List (List Char)
  | _, [] => []
  | line, c :: s =>
    if c = '\n' then line.take limit :: spec_lines_from limit [] s
    else spec_lines_from limit (line ++ [c]) s

/-- The lines of a stream as the specification describes them. -/
def spec_lines (limit : Nat) (s : List Char) : List (List Char) :=
  spec_lines_from limit [] s

/-- The first `k` rounds of the command loop of `main` with `inp` waiting on
`stdin`: each round works on the line `fgets` stores and leaves the rest of
the input to the next round. -/
def main_rounds : Nat → Server → List Char → Option Server
  | 0, s, _ => some s
  | k + 1, s, inp =>
    if s.running then
      (main_iter s inp).bind
        (fun t => main_rounds k t (((fgets BUFFER_SIZE inp).map (fun r => r.2)).getD []))
    else some s

/-! ## handle_cmd: the background marker -/

/-- The trimming loop of `handle_cmd` stops on the last byte of `b`. -/
theorem trim_loop_spaces (b tail : List Char) (hb : b ≠ []) (hlast : b.getLast? ≠ some ' ')
    (n : Nat) :
    trim_loop (b ++ List.replicate n ' ' ++ tail) (b.length + n) = b.length := by
  induction n generalizing tail with
  | zero =>
    obtain ⟨m, hm⟩ : ∃ m, b.length = m + 1 :=
      ⟨b.length - 1, by have := List.length_pos.mpr hb; omega⟩
    simp only [List.replicate_zero, List.append_nil, Nat.add_zero, hm, trim_loop]
    have hget : (b ++ tail).get? m = b.getLast? := by
      rw [List.get?_eq_getElem?, List.getElem?_append_left (by omega), List.getLast?_eq_getElem?, hm]
      simp
    rw [hget]
    simp [hlast]
  | succ n ih =>
    have hsplit : b ++ List.replicate (n + 1) ' ' ++ tail
        = b ++ List.replicate n ' ' ++ (' ' :: tail) := by
      simp [List.replicate_succ', List.append_assoc]
    have hget : (b ++ List.replicate n ' ' ++ (' ' :: tail)).get? (b.length + n) = some ' ' := by
      rw [List.get?_eq_getElem?, List.getElem?_append_right (by simp)]
      simp
    have hlen := List.length_pos.mpr hb
    rw [hsplit, ← Nat.add_assoc, trim_loop, hget]
    simp only [true_and, and_true]
    rw [if_pos (by omega)]
    exact ih (' ' :: tail)

/-- C7: in `handle_cmd`, a command made of a non-empty `b` whose last byte is
not a space, then `n` spaces, then `&`, takes the background branch and the
command launched is exactly `b`; the one-byte command `&` takes the
foreground branch. -/
theorem handle_cmd_background_marker (b : List Char) (n : Nat) (hb : b ≠ [])
    (hlast : b.getLast? ≠ some ' ') :
    handle_cmd (b ++ List.replicate n ' ' ++ ['&']) = Launch.background b
      ∧ handle_cmd ['&'] = Launch.foreground ['&'] := by
  refine ⟨?_, by decide⟩
  have hlen := List.length_pos.mpr hb
  have hl : (b ++ List.replicate n ' ' ++ ['&']).length = b.length + n + 1 := by
    simp only [List.length_append, List.length_replicate, List.length_singleton]
  have hget : (b ++ List.replicate n ' ' ++ ['&']).get? (b.length + n) = some '&' := by
    rw [List.get?_eq_getElem?, List.getElem?_append_right (by simp)]
    simp
  unfold handle_cmd
  rw [hl, Nat.add_sub_cancel, hget, if_pos ⟨by omega, rfl⟩, trim_loop_spaces b ['&'] hb hlast n]
  simp [List.append_assoc]

/-- C7 at the command `ls   &`. -/
theorem handle_cmd_background_marker_witness :
    handle_cmd (['l', 's'] ++ List.replicate 3 ' ' ++ ['&']) = Launch.background ['l', 's']
      ∧ handle_cmd ['&'] = Launch.foreground ['&'] :=
  handle_cmd_background_marker ['l', 's'] 3 (by decide) (by decide)

/-! ## find_client: a numeric key -/

/-- With pairwise distinct ids the search by id finds the record itself. -/
theorem find_by_id_of_nodup (cs : List Client) (r : Client)
    (hnd : (cs.map (fun c => c.id)).Nodup) (hr : r ∈ cs) :
    find_by_id r.id cs = some r := by
  unfold find_by_id
  induction cs with
  | nil => simp at hr
  | cons c cs ih =>
    rw [List.map_cons, List.nodup_cons] at hnd
    rcases List.mem_cons.mp hr with h | h
    · subst h
      simp [List.find?_cons]
    · have hne : c.id ≠ r.id := by
        intro heq
        exact hnd.1 (heq ▸ List.mem_map_of_mem (fun c => c.id) h)
      rw [List.find?_cons]
      simp only [hne, decide_False]
      exact ih hnd.2 h

/-- C3: in a registry with pairwise distinct ids, a key made of decimal digits
whose value is the id of a registered record `r` (an `int`, so at most
`INT_MAX`) makes `find_client` return `r`, whatever the order of the list and
whatever the names of the other records. -/
theorem find_client_by_id (cs : List Client) (key : List Char) (r : Client)
    (hnd : (cs.map (fun c => c.id)).Nodup)
    (hkey : key ≠ []) (hdig : ∀ c ∈ key, isdigit c = true)
    (hr : r ∈ cs) (hval : (digits_value 0 key : Int) = r.id) (hint : r.id ≤ 2147483647) :
    find_client cs key = some r := by
  have hatoi : atoi key = r.id := by
    unfold atoi int_wrap
    have h1 : digits_value 0 key ≤ 2147483647 := by
      have : (digits_value 0 key : Int) ≤ 2147483647 := hval ▸ hint
      exact_mod_cast this
    rw [min_eq_left (by omega), ← hval]
    omega
  cases key with
  | nil => exact absurd rfl hkey
  | cons k ks =>
    have hk : isdigit k = true := hdig k (List.mem_cons_self _ _)
    unfold find_client
    simp only [List.head?_cons, Option.map_some', Option.getD_some, hk, if_true]
    rw [hatoi, find_by_id_of_nodup cs r hnd hr]

/-- C3 for the agents `id = 2, alice` and `id = 5` named `2`: the key `2`
finds the record with id 2. -/
theorem find_client_by_id_witness :
    find_client [⟨11, 5, 4, ['2']⟩, ⟨10, 2, 3, ['a', 'l', 'i', 'c', 'e']⟩] ['2']
      = some ⟨10, 2, 3, ['a', 'l', 'i', 'c', 'e']⟩ :=
  find_client_by_id [⟨11, 5, 4, ['2']⟩, ⟨10, 2, 3, ['a', 'l', 'i', 'c', 'e']⟩] ['2']
    ⟨10, 2, 3, ['a', 'l', 'i', 'c', 'e']⟩ (by decide) (by decide) (by decide) (by decide)
    (by decide) (by decide)

/-! ## The handshake -/

/-- A buffer without NUL is its own C string. -/
theorem cstr_eq_self (l : List Char) (h : ∀ c ∈ l, c ≠ NUL) : cstr l = l := by
  unfold cstr
  rw [List.takeWhile_eq_self_iff]
  intro c hc
  simpa using h c hc

/-- Cutting at the first rejected byte keeps what stands before it. -/
theorem takeWhile_line (l rest : List Char) (rej : List Char) (t : Char)
    (hl : ∀ c ∈ l, rej.contains c = false) (ht : rej.contains t = true) :
    (l ++ t :: rest).takeWhile (fun c => !(rej.contains c)) = l := by
  induction l with
  | nil =>
    have ht2 : t ∈ rej := by simpa using ht
    simp [List.takeWhile_cons, ht2]
  | cons a l ih =>
    have ha := hl a (List.mem_cons_self _ _)
    rw [List.cons_append, List.takeWhile_cons]
    simp only [ha, Bool.not_false, if_true]
    rw [ih (fun c hc => hl c (List.mem_cons_of_mem _ hc))]

/-- Nothing is cut when no byte is rejected. -/
theorem takeWhile_all (l : List Char) (rej : List Char)
    (hl : ∀ c ∈ l, rej.contains c = false) :
    l.takeWhile (fun c => !(rej.contains c)) = l := by
  rw [List.takeWhile_eq_self_iff]
  intro c hc
  have h := hl c hc
  simp only [h, Bool.not_false]

/-- The bytes the handshake `recv` of the coordinator gets. -/
theorem handshake_received (name : List Char)
    (hname : ∀ c ∈ name, c ≠ '\r' ∧ c ≠ '\n' ∧ c ≠ NUL) :
    (client_handshake name).take 63 = (name ++ ['\n']).take 63 := by
  unfold client_handshake snprintf_line BUFFER_SIZE
  rw [cstr_eq_self name (fun c hc => (hname c hc).2.2), List.take_take]
  rfl

/-- The name stored by `accept_loop` for a handshake sent by the agent. -/
theorem handshake_username (name : List Char)
    (hname : ∀ c ∈ name, c ≠ '\r' ∧ c ≠ '\n' ∧ c ≠ NUL) :
    strncpy 63 (strcspn_cut ((client_handshake name).take 63) ['\r', '\n']) = name.take 63 := by
  have hrej : ∀ c ∈ name, ['\r', '\n'].contains c = false := by
    intro c hc
    obtain ⟨h1, h2, -⟩ := hname c hc
    simp [h1, h2]
  have hnul : ∀ c ∈ name, c ≠ NUL := fun c hc => (hname c hc).2.2
  rw [handshake_received name hname]
  have hcut : strcspn_cut ((name ++ ['\n']).take 63) ['\r', '\n'] = name.take 63 := by
    unfold strcspn_cut
    by_cases hlen : name.length < 63
    · rw [List.take_of_length_le (by simp; omega)]
      rw [cstr_eq_self _ (by
        intro c hc
        rcases List.mem_append.mp hc with h | h
        · exact hnul c h
        · simp at h; subst h; decide)]
      rw [takeWhile_line name [] _ '\n' hrej (by decide), List.take_of_length_le (by omega)]
    · rw [List.take_append_of_le_length (by omega)]
      rw [cstr_eq_self _ (fun c hc => hnul c (List.mem_of_mem_take hc))]
      exact takeWhile_all _ _ (fun c hc => hrej c (List.mem_of_mem_take hc))
  rw [hcut]
  unfold strncpy
  rw [cstr_eq_self _ (fun c hc => hnul c (List.mem_of_mem_take hc)), List.take_take]
  simp

/-- C8: for a name without CR, LF and NUL that the agent sends as its
handshake and the coordinator reads with its handshake `recv`, a record is
registered whose `username` is the whole name when it has at most 63 bytes,
and exactly its first 63 bytes when it has 64 or more. -/
theorem handshake_name_roundtrip (s : Server) (cl p : Nat) (name : List Char)
    (hname : ∀ c ∈ name, c ≠ '\r' ∧ c ≠ '\n' ∧ c ≠ NUL) :
    ∃ c : Client, (accept_loop s cl p (client_handshake name)).2 = some c
      ∧ (accept_loop s cl p (client_handshake name)).1.clients = c :: s.clients
      ∧ (name.length ≤ 63 → c.username = name)
      ∧ (64 ≤ name.length → c.username = name.take 63 ∧ c.username.length = 63) := by
  have hne : (client_handshake name).take 63 ≠ [] := by
    rw [handshake_received name hname]
    intro h
    have := congrArg List.length h
    simp at this
  refine ⟨⟨p, s.next_id, cl, name.take 63⟩, ?_, ?_, ?_, ?_⟩
  · simp only [accept_loop, if_neg hne, handshake_username name hname]
  · simp only [accept_loop, if_neg hne, handshake_username name hname, add_client]
  · intro h
    exact List.take_of_length_le h
  · intro h
    exact ⟨rfl, by simp only [List.length_take]; omega⟩

/-- C8 for the name `bob`. -/
theorem handshake_name_roundtrip_witness :
    ∃ c : Client, (accept_loop Server.init 4 9 (client_handshake ['b', 'o', 'b'])).2 = some c
      ∧ (accept_loop Server.init 4 9 (client_handshake ['b', 'o', 'b'])).1.clients
          = c :: Server.init.clients
      ∧ ((['b', 'o', 'b'] : List Char).length ≤ 63 → c.username = ['b', 'o', 'b'])
      ∧ (64 ≤ (['b', 'o', 'b'] : List Char).length →
          c.username = (['b', 'o', 'b'] : List Char).take 63 ∧ c.username.length = 63) :=
  handshake_name_roundtrip Server.init 4 9 ['b', 'o', 'b'] (by decide)

/-! ## The operator line -/

/-- The call `fgets` stores at most `n` bytes. -/
theorem fgets_loop_length (n : Nat) (s : List Char) : (fgets_loop n s).1.length ≤ n := by
  induction n generalizing s with
  | zero => simp [fgets_loop]
  | succ n ih =>
    cases s with
    | nil => simp [fgets_loop]
    | cons c s =>
      simp only [fgets_loop]
      split
      · simp
      · have := ih s
        simp only [List.cons_eq_cons, List.length_cons]
        omega

/-- A cut string is not longer than the buffer it is cut from. -/
theorem strcspn_cut_length (s rej : List Char) : (strcspn_cut s rej).length ≤ s.length := by
  unfold strcspn_cut cstr
  exact ((List.takeWhile_sublist _).length_le).trans ((List.takeWhile_sublist _).length_le)

/-- The line the command loop works on fits its buffer: at most
`BUFFER_SIZE - 1` bytes. -/
theorem read_line_length (inp line : List Char) (h : read_line inp = some line) :
    line.length ≤ 1023 := by
  unfold read_line fgets at h
  split at h
  · simp at h
  · simp only [Option.map_some', Option.some.injEq] at h
    subst h
    exact (strcspn_cut_length _ _).trans (fgets_loop_length _ _)

/-- The message built by `snprintf` for a line shorter than the buffer. -/
theorem snprintf_line_fits (size : Nat) (l : List Char) (h : l.length + 1 ≤ size - 1) :
    snprintf_line size l = l ++ ['\n'] := by
  unfold snprintf_line
  exact List.take_of_length_le (by simpa using h)

/-- The message built by `snprintf` for a line that fills the buffer. -/
theorem snprintf_line_full (size : Nat) (l : List Char) (h : l.length = size - 1) :
    snprintf_line size l = l := by
  unfold snprintf_line
  rw [← h, List.take_left']
  rfl

/-- A round of the command loop that reads the line `all <rest>` sends the
message `<rest>\n` once per record and changes nothing else. -/
theorem main_iter_all (s : Server) (inp rest : List Char)
    (hline : read_line inp = some (['a', 'l', 'l', ' '] ++ rest)) :
    ∃ t, main_iter s inp = some t
      ∧ t.sent = s.sent ++ s.clients.map (fun c => (c.sock, rest ++ ['\n']))
      ∧ t.clients = s.clients ∧ t.current = s.current
      ∧ t = { s with sent := s.sent ++ s.clients.map (fun c => (c.sock, rest ++ ['\n'])) } := by
  have hlen := read_line_length inp _ hline
  simp only [List.length_append, List.length_cons, List.length_nil] at hlen
  have hmsg : snprintf_line BUFFER_SIZE rest = rest ++ ['\n'] :=
    snprintf_line_fits _ rest (by simp only [BUFFER_SIZE]; omega)
  have hbody : main_body s (['a', 'l', 'l', ' '] ++ rest)
      = some { s with sent := s.sent ++ s.clients.map (fun c => (c.sock, rest ++ ['\n'])) } := by
    simp [main_body, broadcast_cmd, hmsg]
  refine ⟨{ s with sent := s.sent ++ s.clients.map (fun c => (c.sock, rest ++ ['\n'])) },
    ?_, rfl, rfl, rfl, rfl⟩
  simp only [main_iter, hline, hbody]

/-! ## The implicit command -/

/-- The last branch of the command loop with one agent and no selection: the
agent is selected and gets the message. -/
theorem main_body_autoselect (s : Server) (a : Client) (line : List Char)
    (himp : is_implicit line) (hreg : s.clients = [a]) (hcur : s.current = none) :
    main_body s line = some { s with
      current := some a.ptr,
      sent := s.sent ++ [(a.sock, snprintf_line BUFFER_SIZE line)] } := by
  obtain ⟨h1, h2, h3, h4, h5⟩ := himp
  simp [main_body, h1, h2, h3, h4, h5, hreg, hcur, send_to_one, deref]

/-- The call `fgets` on input that starts with `n` bytes without a newline
stores these bytes and leaves the rest. -/
theorem fgets_loop_full (l rest : List Char) (h : ∀ c ∈ l, c ≠ '\n') :
    fgets_loop l.length (l ++ rest) = (l, rest) := by
  induction l with
  | nil => simp [fgets_loop]
  | cons a l ih =>
    have ha : a ≠ '\n' := h a (List.mem_cons_self _ _)
    have ih2 := ih (fun c hc => h c (List.mem_cons_of_mem _ hc))
    simp only [List.length_cons, List.cons_append, fgets_loop, if_neg ha]
    have ih3 : fgets_loop l.length (l.append rest) = (l, rest) := ih2
    rw [ih3]

/-- The command loop reads 1023 bytes without a newline as one line. -/
theorem read_line_full (l rest : List Char) (h : ∀ c ∈ l, c ≠ '\n' ∧ c ≠ NUL)
    (hlen : l.length = 1023) : read_line (l ++ rest) = some l := by
  have hne : l ++ rest ≠ [] := by
    intro h0
    rw [(List.append_eq_nil.mp h0).1] at hlen
    simp at hlen
  unfold read_line fgets
  rw [if_neg hne]
  have h1 : BUFFER_SIZE - 1 = l.length := by rw [hlen]; rfl
  rw [h1, fgets_loop_full l rest (fun c hc => (h c hc).1)]
  simp only [Option.map_some', strcspn_cut]
  rw [cstr_eq_self l (fun c hc => (h c hc).2)]
  rw [takeWhile_all l ['\n'] (by
    intro c hc
    have := (h c hc).1
    simp [this])]

/-- C6, the code at the failing input: with one agent connected, an operator
line of 1023 bytes `x` is read in full by the command loop and dispatched as
an implicit command, and the message sent to the agent is these 1023 bytes
with no newline after them. -/
theorem implicit_full_line_unterminated :
    read_line (List.replicate 1023 'x' ++ ['\n']) = some (List.replicate 1023 'x')
      ∧ step { Server.init with clients := [⟨10, 1, 3, ['b', 'o', 'b']⟩], next_id := 2 }
          (Event.operator (List.replicate 1023 'x' ++ ['\n']))
        = some { Server.init with
            clients := [⟨10, 1, 3, ['b', 'o', 'b']⟩], next_id := 2,
            current := some 10, sent := [(3, List.replicate 1023 'x')] }
      ∧ '\n' ∉ List.replicate 1023 'x' := by
  have hx : ∀ c ∈ List.replicate 1023 'x', c ≠ '\n' ∧ c ≠ NUL := by
    intro c hc
    rw [List.eq_of_mem_replicate hc]
    decide
  have hread := read_line_full (List.replicate 1023 'x') ['\n'] hx (List.length_replicate _ _)
  have himp : is_implicit (List.replicate 1023 'x') := by
    have hlen : (List.replicate 1023 'x').length = 1023 := List.length_replicate _ _
    have h4 : (List.replicate 1023 'x').take 4 = ['x', 'x', 'x', 'x'] := by
      rw [List.take_replicate]
      rfl
    refine ⟨?_, ?_, ?_, ?_, ?_⟩
    · intro h; rw [h] at hlen; simp at hlen
    · intro h; rw [h] at hlen; simp at hlen
    · intro h; rw [h] at hlen; simp at hlen
    · rw [h4]; decide
    · rw [h4]; decide
  refine ⟨hread, ?_, fun h => (hx _ h).1 rfl⟩
  have hbody := main_body_autoselect
    { Server.init with clients := [⟨10, 1, 3, ['b', 'o', 'b']⟩], next_id := 2 }
    ⟨10, 1, 3, ['b', 'o', 'b']⟩ (List.replicate 1023 'x') himp rfl rfl
  have hmsg : snprintf_line BUFFER_SIZE (List.replicate 1023 'x') = List.replicate 1023 'x' :=
    snprintf_line_full BUFFER_SIZE _ (List.length_replicate _ _)
  rw [hmsg] at hbody
  simp only [step, main_iter, hread]
  exact hbody

/-! ## The cursor never dangles -/

/-- A record other than the one unlinked stays in the list. -/
theorem mem_unlink (p : Nat) (c : Client) (cs : List Client) (hc : c ∈ cs) (hp : c.ptr ≠ p) :
    c ∈ (unlink p cs).1 := by
  induction cs with
  | nil => simp at hc
  | cons d cs ih =>
    by_cases hd : d.ptr = p
    · simp only [unlink, hd, if_true]
      rcases List.mem_cons.mp hc with h | h
      · exact absurd (h ▸ hd) hp
      · exact h
    · simp only [unlink, hd, if_false]
      rcases List.mem_cons.mp hc with h | h
      · exact h ▸ List.mem_cons_self _ _
      · exact List.mem_cons_of_mem _ (ih h)

/-- A pointer to a record of the registry can be read. -/
theorem deref_of_mem (s : Server) (p : Nat) (h : ∃ c ∈ s.clients, c.ptr = p) :
    ∃ r, deref s p = some r ∧ r ∈ s.clients ∧ r.ptr = p := by
  obtain ⟨c, hc, hp⟩ := h
  unfold deref
  cases hf : s.clients.find? (fun c => c.ptr == p) with
  | none =>
    have := List.find?_eq_none.mp hf c hc
    simp [hp] at this
  | some r =>
    refine ⟨r, rfl, List.mem_of_find?_eq_some hf, ?_⟩
    simpa using List.find?_some hf

/-- The record returned by `find_client` is in the registry. -/
theorem find_client_mem (cs : List Client) (key : List Char) (c : Client)
    (h : find_client cs key = some c) : c ∈ cs := by
  unfold find_client at h
  split at h
  · split at h
    · rename_i r hr
      cases Option.some.inj h
      exact List.mem_of_find?_eq_some hr
    · exact List.mem_of_find?_eq_some h
  · exact List.mem_of_find?_eq_some h

/-- The end of `client_reader` keeps the cursor invariant. -/
theorem client_reader_valid (s : Server) (p : Nat) (h : cursor_valid s) :
    cursor_valid (client_reader s p) := by
  intro q hq
  unfold client_reader remove_client at hq ⊢
  by_cases hcur : s.current = some p
  · rw [if_pos hcur] at hq ⊢
    split at hq <;> simp at hq
  · rw [if_neg hcur] at hq ⊢
    have hq2 : s.current = some q := by
      split at hq <;> exact hq
    obtain ⟨c, hc, hcp⟩ := h q hq2
    have hne : c.ptr ≠ p := by
      intro heq
      exact hcur (by rw [hq2, ← hcp, heq])
    split
    · exact ⟨c, mem_unlink p c s.clients hc hne, hcp⟩
    · exact ⟨c, hc, hcp⟩

/-- One round of `accept_loop` keeps the cursor invariant. -/
theorem accept_loop_valid (s : Server) (cl p : Nat) (pending : List Char) (h : cursor_valid s) :
    cursor_valid (accept_loop s cl p pending).1 := by
  intro q hq
  unfold accept_loop at hq ⊢
  split at hq
  · rw [if_pos (by assumption)]
    exact h q hq
  · rw [if_neg (by assumption)]
    obtain ⟨c, hc, hcp⟩ := h q hq
    exact ⟨c, List.mem_cons_of_mem _ hc, hcp⟩

/-- The last branch of the command loop under the cursor invariant: either
nothing is sent, or the message goes to the socket of the registered record
the cursor points to. -/
theorem main_body_implicit_valid (s : Server) (line : List Char) (h : cursor_valid s)
    (himp : is_implicit line) :
    ∃ t, main_body s line = some t ∧ cursor_valid t ∧ t.clients = s.clients
      ∧ (t = s ∨ ∃ c, c ∈ s.clients ∧ deref t c.ptr = some c ∧ t.current = some c.ptr
          ∧ t.sent = s.sent ++ [(c.sock, snprintf_line BUFFER_SIZE line)]) := by
  obtain ⟨h1, h2, h3, h4, h5⟩ := himp
  simp only [main_body, h1, h2, h3, h4, h5, if_false]
  split
  · exact ⟨s, rfl, h, rfl, Or.inl rfl⟩
  · split
    · rename_i hone
      obtain ⟨hlen, hcur⟩ := hone
      obtain ⟨a, ha⟩ := List.length_eq_one.mp hlen
      have hb := main_body_autoselect s a line ⟨h1, h2, h3, h4, h5⟩ ha hcur
      simp only [main_body, h1, h2, h3, h4, h5, if_false] at hb
      rw [if_neg (by rw [ha]; simp), if_pos ⟨hlen, hcur⟩] at hb
      rw [hb]
      refine ⟨_, rfl, ?_, rfl, Or.inr ⟨a, by simp [ha], by simp [deref, ha], rfl, rfl⟩⟩
      intro q hq
      exact ⟨a, by simp [ha], (Option.some.inj hq)⟩
    · cases hcur : s.current with
      | none => exact ⟨s, by simp [send_to_one], h, rfl, Or.inl rfl⟩
      | some p =>
        obtain ⟨r, hr, hmem, hrp⟩ := deref_of_mem s p (h p hcur)
        refine ⟨{ s with sent := s.sent ++ [(r.sock, snprintf_line BUFFER_SIZE line)] },
          by simp [send_to_one, hr], h, rfl, Or.inr ⟨r, hmem, ?_, ?_, rfl⟩⟩
        · rw [hrp]; exact hr
        · rw [hrp]; exact hcur

/-- One round of the command loop keeps the cursor invariant and never reads
a dead record. -/
theorem main_iter_valid (s : Server) (inp : List Char) (h : cursor_valid s) :
    ∃ t, main_iter s inp = some t ∧ cursor_valid t := by
  unfold main_iter
  cases hr : read_line inp with
  | none => exact ⟨_, rfl, h⟩
  | some line =>
    by_cases himp : is_implicit line
    · obtain ⟨t, ht, hv, -, -⟩ := main_body_implicit_valid s line h himp
      exact ⟨t, ht, hv⟩
    · simp only [main_body]
      split
      · exact ⟨_, rfl, h⟩
      · split
        · exact ⟨_, rfl, h⟩
        · split
          · exact ⟨_, rfl, h⟩
          · split
            · split
              · exact ⟨_, rfl, h⟩
              · rename_i c hc
                refine ⟨_, rfl, ?_⟩
                intro q hq
                exact ⟨c, find_client_mem _ _ _ hc, Option.some.inj hq⟩
            · split
              · exact ⟨_, rfl, h⟩
              · exfalso
                apply himp
                refine ⟨?_, ?_, ?_, ?_, ?_⟩ <;> assumption

/-- Every step keeps the cursor invariant and never reads a dead record. -/
theorem step_valid (s : Server) (e : Event) (h : cursor_valid s) :
    ∃ t, step s e = some t ∧ cursor_valid t := by
  unfold step
  split
  · cases e with
    | connect cl p pending => exact ⟨_, rfl, accept_loop_valid s cl p pending h⟩
    | disconnect p => exact ⟨_, rfl, client_reader_valid s p h⟩
    | operator inp => exact main_iter_valid s inp h
  · exact ⟨s, rfl, h⟩

/-- Every sequence of steps keeps the cursor invariant. -/
theorem run_valid (evs : List Event) (s : Server) (h : cursor_valid s) :
    ∃ t, run s evs = some t ∧ cursor_valid t := by
  induction evs generalizing s with
  | nil => exact ⟨s, rfl, h⟩
  | cons e es ih =>
    obtain ⟨t, ht, hv⟩ := step_valid s e h
    obtain ⟨u, hu, hv2⟩ := ih t hv
    exact ⟨u, by simp [run, ht, hu], hv2⟩

/-- C1: in the sequential step model (an agent connects, a connection ends,
the operator enters a line) every sequence of steps from the initial state
reaches a state in which `current` is NULL or points to a record of the
registry; hence an implicit command entered there is sent, if at all, to the
socket of a record that is in the registry, the one `current` points to, and
the registry is read without touching a removed record. -/
theorem cursor_never_dangles (evs : List Event) :
    ∃ s, run Server.init evs = some s ∧ cursor_valid s
      ∧ ∀ inp line, read_line inp = some line → is_implicit line →
          ∃ t, main_iter s inp = some t
            ∧ (t = s ∨ ∃ c, c ∈ s.clients ∧ c ∈ t.clients ∧ deref t c.ptr = some c
                ∧ t.current = some c.ptr
                ∧ t.sent = s.sent ++ [(c.sock, snprintf_line BUFFER_SIZE line)]) := by
  obtain ⟨s, hs, hv⟩ := run_valid evs Server.init (by intro p hp; simp [Server.init] at hp)
  refine ⟨s, hs, hv, ?_⟩
  intro inp line hline himp
  obtain ⟨t, ht, -, hcl, hsend⟩ := main_body_implicit_valid s line hv himp
  refine ⟨t, by simp only [main_iter, hline, ht], ?_⟩
  rcases hsend with h | ⟨c, hc, hd, hcur, hsent⟩
  · exact Or.inl h
  · exact Or.inr ⟨c, hc, hcl ▸ hc, hd, hcur, hsent⟩

/-! ## The ids -/

/-- Unlinking leaves a sublist. -/
theorem unlink_sublist (p : Nat) (cs : List Client) : List.Sublist (unlink p cs).1 cs := by
  induction cs with
  | nil => simp [unlink]
  | cons c cs ih =>
    by_cases hc : c.ptr = p
    · simp only [unlink, hc, if_true]
      exact List.sublist_cons_self _ _
    · simp only [unlink, hc, if_false]
      exact ih.cons₂ _

/-- The end of `client_reader` leaves a sublist of the registry and does not
touch `next_id`. -/
theorem client_reader_clients (s : Server) (p : Nat) :
    List.Sublist (client_reader s p).clients s.clients
      ∧ (client_reader s p).next_id = s.next_id := by
  unfold client_reader remove_client
  split <;> split <;> first
    | exact ⟨unlink_sublist p _, rfl⟩
    | exact ⟨List.Sublist.refl _, rfl⟩

/-- The command loop does not touch the registry or `next_id`. -/
theorem main_iter_clients (s t : Server) (inp : List Char) (h : main_iter s inp = some t) :
    t.clients = s.clients ∧ t.next_id = s.next_id := by
  unfold main_iter at h
  split at h
  · cases Option.some.inj h
    exact ⟨rfl, rfl⟩
  · unfold main_body at h
    repeat' split at h
    all_goals first
      | (cases Option.some.inj h; exact ⟨rfl, rfl⟩)
      | (simp only [send_to_one] at h
         repeat' split at h
         all_goals first
           | (cases Option.some.inj h; exact ⟨rfl, rfl⟩)
           | exact absurd h (by simp))

/-- What a step does to the registry and to `next_id`: it creates no record,
leaves a sublist of the registry and keeps `next_id`; or it is a connection
that puts a new record with id `next_id` at the head and increments
`next_id`. -/
theorem step_ids (s : Server) (e : Event) (h : cursor_valid s) :
    ∃ t, step s e = some t ∧ cursor_valid t
      ∧ ((created s e = none ∧ List.Sublist t.clients s.clients ∧ t.next_id = s.next_id)
        ∨ (∃ c, created s e = some c ∧ c.id = s.next_id ∧ t.clients = c :: s.clients
            ∧ t.next_id = int_wrap (s.next_id + 1) ∧ ∀ es, connects (e :: es) = connects es + 1)) := by
  obtain ⟨t, ht, hv⟩ := step_valid s e h
  refine ⟨t, ht, hv, ?_⟩
  unfold step at ht
  by_cases hrun : s.running = true
  · rw [if_pos hrun] at ht
    cases e with
    | connect cl p pending =>
      simp only [Option.some.injEq] at ht
      subst ht
      simp only [created, hrun, if_true]
      unfold accept_loop
      split
      · exact Or.inl ⟨rfl, List.Sublist.refl _, rfl⟩
      · exact Or.inr ⟨_, rfl, rfl, rfl, rfl, fun es => rfl⟩
    | disconnect p =>
      simp only [Option.some.injEq] at ht
      subst ht
      exact Or.inl ⟨rfl, (client_reader_clients s p).1, (client_reader_clients s p).2⟩
    | operator inp =>
      have := main_iter_clients s t inp ht
      exact Or.inl ⟨rfl, this.1 ▸ List.Sublist.refl _, this.2⟩
  · rw [if_neg hrun] at ht
    cases Option.some.inj ht
    refine Or.inl ⟨?_, List.Sublist.refl _, rfl⟩
    cases e <;> simp [created, hrun]

/-- The number of connections does not decrease along a sequence. -/
theorem connects_cons_le (e : Event) (es : List Event) : connects es ≤ connects (e :: es) := by
  cases e <;> simp [connects]

/-- The ids along a sequence of steps from a state in which `k` ids have been
given: as long as `next_id` stays in the range of `int`, the ids given are
`k + 1`, `k + 2`, ... and the registry holds no id twice. -/
theorem ids_run (evs : List Event) (s : Server) (k : Nat) (hv : cursor_valid s)
    (hk : k + connects evs ≤ 2147483647)
    (hnext : connects evs ≠ 0 → s.next_id = (k : Int) + 1)
    (hids : ∀ c ∈ s.clients, c.id ≤ (k : Int))
    (hnd : (s.clients.map (fun c => c.id)).Nodup) :
    ∃ t, run s evs = some t
      ∧ (t.clients.map (fun c => c.id)).Nodup
      ∧ (assigned_ids s evs).Pairwise (fun a b => a < b)
      ∧ (∀ i ∈ assigned_ids s evs, (k : Int) < i)
      ∧ (∀ i, (assigned_ids s evs).head? = some i → i = (k : Int) + 1)
      ∧ (∀ c ∈ t.clients, c ∈ s.clients ∨ c.id ∈ assigned_ids s evs) := by
  induction evs generalizing s k with
  | nil =>
    exact ⟨s, rfl, hnd, List.Pairwise.nil, by simp [assigned_ids], by simp [assigned_ids],
      fun c hc => Or.inl hc⟩
  | cons e es ih =>
    obtain ⟨t, ht, hvt, hcase⟩ := step_ids s e hv
    have hle := connects_cons_le e es
    rcases hcase with ⟨hnone, hsub, hnx⟩ | ⟨c, hsome, hcid, hcl, hnx, hcnt⟩
    · obtain ⟨u, hu, hnd2, hpw, hgt, hhd, hmem⟩ := ih t k hvt (by omega)
        (fun h0 => by rw [hnx]; exact hnext (by omega))
        (fun c hc => hids c (hsub.subset hc))
        (List.Nodup.sublist (hsub.map _) hnd)
      refine ⟨u, by simp [run, ht, hu], hnd2, ?_, ?_, ?_, ?_⟩
      · simpa [assigned_ids, hnone, ht] using hpw
      · simpa [assigned_ids, hnone, ht] using hgt
      · simpa [assigned_ids, hnone, ht] using hhd
      · intro d hd
        rcases hmem d hd with h | h
        · exact Or.inl (hsub.subset h)
        · exact Or.inr (by simpa [assigned_ids, hnone, ht] using h)
    · have hc1 := hcnt es
      have hsn : s.next_id = (k : Int) + 1 := hnext (by omega)
      have hcid2 : c.id = (k : Int) + 1 := by rw [hcid, hsn]
      obtain ⟨u, hu, hnd2, hpw, hgt, hhd, hmem⟩ := ih t (k + 1) hvt (by omega)
        (fun h0 => by
          rw [hnx, hsn]
          unfold int_wrap
          push_cast
          omega)
        (fun d hd => by
          rw [hcl] at hd
          rcases List.mem_cons.mp hd with h | h
          · rw [h, hcid2]; push_cast; omega
          · have := hids d h
            push_cast
            omega)
        (by
          rw [hcl, List.map_cons, List.nodup_cons]
          refine ⟨?_, hnd⟩
          intro hin
          obtain ⟨d, hd, hdid⟩ := List.mem_map.mp hin
          have := hids d hd
          omega)
      have hass : assigned_ids s (e :: es) = c.id :: assigned_ids t es := by
        simp [assigned_ids, hsome, ht]
      refine ⟨u, by simp [run, ht, hu], hnd2, ?_, ?_, ?_, ?_⟩
      · rw [hass, List.pairwise_cons]
        refine ⟨?_, hpw⟩
        intro i hi
        have := hgt i hi
        push_cast at this
        omega
      · intro i hi
        rw [hass] at hi
        rcases List.mem_cons.mp hi with h | h
        · omega
        · have := hgt i h
          push_cast at this
          omega
      · intro i hi
        rw [hass] at hi
        simp only [List.head?_cons, Option.some.injEq] at hi
        omega
      · intro d hd
        rcases hmem d hd with h | h
        · rw [hcl] at h
          rcases List.mem_cons.mp h with h2 | h2
          · exact Or.inr (by rw [hass, h2]; exact List.mem_cons_self _ _)
          · exact Or.inl h2
        · exact Or.inr (by rw [hass]; exact List.mem_cons_of_mem _ h)

/-- C2, amended: for every sequence of steps from the initial state with at
most `2^31 - 1` connections, so that `next_id` stays in the range of `int`,
the registry reached holds no id twice, the ids given are strictly
increasing in the order they are given (none is given twice, also after its
record has been removed), the first id given is 1, and every id in the
registry is one of the ids given. -/
theorem ids_unique_increasing (evs : List Event) (hbound : connects evs ≤ 2147483647) :
    ∃ s, run Server.init evs = some s
      ∧ (s.clients.map (fun c => c.id)).Nodup
      ∧ (assigned_ids Server.init evs).Pairwise (fun a b => a < b)
      ∧ (∀ i, (assigned_ids Server.init evs).head? = some i → i = 1)
      ∧ (∀ c ∈ s.clients, c.id ∈ assigned_ids Server.init evs) := by
  obtain ⟨t, ht, hnd, hpw, -, hhd, hmem⟩ := ids_run evs Server.init 0
    (by intro p hp; simp [Server.init] at hp) (by omega) (fun _ => rfl)
    (by intro c hc; simp [Server.init] at hc) (by simp [Server.init])
  refine ⟨t, ht, hnd, hpw, ?_, ?_⟩
  · intro i hi
    simpa using hhd i hi
  · intro c hc
    rcases hmem c hc with h | h
    · simp [Server.init] at h
    · exact h

/-- C2, amended, for two agents that connect, the first of which leaves before
a third one connects. -/
theorem ids_unique_increasing_witness :
    ∃ s, run Server.init [Event.connect 3 7 ['a', '\n'], Event.connect 4 8 ['b', '\n'],
          Event.disconnect 7, Event.connect 3 7 ['c', '\n']] = some s
      ∧ (s.clients.map (fun c => c.id)).Nodup
      ∧ (assigned_ids Server.init [Event.connect 3 7 ['a', '\n'], Event.connect 4 8 ['b', '\n'],
          Event.disconnect 7, Event.connect 3 7 ['c', '\n']]).Pairwise (fun a b => a < b)
      ∧ (∀ i, (assigned_ids Server.init [Event.connect 3 7 ['a', '\n'],
          Event.connect 4 8 ['b', '\n'], Event.disconnect 7,
          Event.connect 3 7 ['c', '\n']]).head? = some i → i = 1)
      ∧ (∀ c ∈ s.clients, c.id ∈ assigned_ids Server.init [Event.connect 3 7 ['a', '\n'],
          Event.connect 4 8 ['b', '\n'], Event.disconnect 7, Event.connect 3 7 ['c', '\n']]) :=
  ids_unique_increasing [Event.connect 3 7 ['a', '\n'], Event.connect 4 8 ['b', '\n'],
    Event.disconnect 7, Event.connect 3 7 ['c', '\n']] (by decide)

/-- A round of `churn` from a state with an empty registry: the id given is
`next_id`, and the state is as before but for `next_id` and the sockets
closed. -/
theorem churn_round (s : Server) (es : List Event) (hrun : s.running = true)
    (hcl : s.clients = []) (hcur : s.current = none) :
    ∃ t, t.running = true ∧ t.clients = [] ∧ t.current = none
      ∧ t.next_id = int_wrap (s.next_id + 1)
      ∧ assigned_ids s (Event.connect 3 7 ['a', '\n'] :: Event.disconnect 7 :: es)
          = s.next_id :: assigned_ids t es := by
  have hp : List.take 63 ['a', '\n'] ≠ [] := by decide
  refine ⟨{ s with next_id := int_wrap (s.next_id + 1), closed := s.closed ++ [3] },
    hrun, hcl, hcur, rfl, ?_⟩
  simp [assigned_ids, created, step, accept_loop, add_client, client_reader, remove_client,
    unlink, hrun, hcl, hcur]

/-- The ids given along `churn n`: the first is `next_id`, and `next_id` has
moved `n` times. -/
theorem churn_ids (n : Nat) (s : Server) (es : List Event) (hrun : s.running = true)
    (hcl : s.clients = []) (hcur : s.current = none) (hint : int_wrap s.next_id = s.next_id) :
    ∃ t l, t.running = true ∧ t.clients = [] ∧ t.current = none
      ∧ t.next_id = int_wrap (s.next_id + n)
      ∧ assigned_ids s (churn n ++ es) = l ++ assigned_ids t es
      ∧ (0 < n → l.head? = some s.next_id) := by
  induction n generalizing s with
  | zero =>
    exact ⟨s, [], hrun, hcl, hcur, by simpa using hint.symm, rfl, fun h => absurd h (by omega)⟩
  | succ n ih =>
    obtain ⟨s1, hr1, hc1, hu1, hn1, ha1⟩ := churn_round s (churn n ++ es) hrun hcl hcur
    obtain ⟨t, l, hr, hc, hu, hn, ha, -⟩ := ih s1 hr1 hc1 hu1 (by
      rw [hn1]
      unfold int_wrap
      omega)
    refine ⟨t, s.next_id :: l, hr, hc, hu, ?_, ?_, fun _ => rfl⟩
    · rw [hn, hn1]
      unfold int_wrap
      push_cast
      omega
    · show assigned_ids s (Event.connect 3 7 ['a', '\n'] :: Event.disconnect 7 :: (churn n ++ es))
        = _
      rw [ha1, ha]
      rfl

/-- The number of connections in `churn n`. -/
theorem connects_churn (n : Nat) (es : List Event) :
    connects (churn n ++ es) = n + connects es := by
  induction n with
  | zero => simp [churn]
  | succ n ih =>
    show connects (Event.connect 3 7 ['a', '\n'] :: Event.disconnect 7 :: (churn n ++ es)) = _
    simp only [connects, ih]
    omega

/-- C2, counterexample to the claim as stated: after an agent has connected
and disconnected `2^31 - 1` times, the first of these connections having got
id 1, the next agent to connect gets the id `-2^31`, so the ids given are not
increasing. -/
theorem id_wraps_after_int_max :
    connects (churn 2147483647 ++ [Event.connect 3 7 ['a', '\n']]) = 2147483648
      ∧ (assigned_ids Server.init (churn 2147483647 ++ [Event.connect 3 7 ['a', '\n']])).head?
          = some 1
      ∧ (assigned_ids Server.init
          (churn 2147483647 ++ [Event.connect 3 7 ['a', '\n']])).getLast?
          = some (-2147483648)
      ∧ ¬ (assigned_ids Server.init
          (churn 2147483647 ++ [Event.connect 3 7 ['a', '\n']])).Pairwise (fun a b => a < b) := by
  obtain ⟨t, l, hr, hc, hu, hn, ha, hhead⟩ :=
    churn_ids 2147483647 Server.init [Event.connect 3 7 ['a', '\n']] rfl rfl rfl (by decide)
  have hlast : assigned_ids t [Event.connect 3 7 ['a', '\n']] = [-2147483648] := by
    have hv : t.next_id = -2147483648 := by
      rw [hn]
      decide
    simp [assigned_ids, created, step, accept_loop, add_client, hr, hv]
  have hl := hhead (by decide)
  rw [ha, hlast]
  refine ⟨?_, ?_, ?_, ?_⟩
  · rw [connects_churn]
    rfl
  · cases l with
    | nil => simp at hl
    | cons a l => simpa using hl
  · simp
  · cases l with
    | nil => simp at hl
    | cons a l =>
      simp only [List.head?_cons, Option.some.injEq] at hl
      subst hl
      intro hp
      rw [List.cons_append, List.pairwise_cons] at hp
      have := hp.1 (-2147483648) (by simp)
      simp [Server.init] at this

/-! ## recv_line -/

/-- The call `recv_line` on a stream that starts with a line shorter than the
room left: the line is stored, its newline consumed. -/
theorem recv_line_loop_line (l : List Char) (h : ∀ c ∈ l, c ≠ '\n') (k : Nat)
    (buf rest : List Char) (hk : l.length < k) :
    recv_line_loop k buf (l ++ '\n' :: rest) = ⟨(buf ++ l).length, buf ++ l, rest⟩ := by
  induction l generalizing k buf with
  | nil =>
    obtain ⟨j, rfl⟩ : ∃ j, k = j + 1 := ⟨k - 1, by simp at hk; omega⟩
    simp [recv_line_loop, recv_byte]
  | cons a l ih =>
    obtain ⟨j, rfl⟩ : ∃ j, k = j + 1 := ⟨k - 1, by simp at hk; omega⟩
    have ha : a ≠ '\n' := h a (List.mem_cons_self _ _)
    simp only [List.cons_append, recv_line_loop, recv_byte, if_neg ha]
    rw [ih (fun c hc => h c (List.mem_cons_of_mem _ hc)) j (buf ++ [a])
      (by simp at hk; omega)]
    simp

/-- The call `recv_line` on a stream that starts with as many bytes without a
newline as there is room: these bytes are stored and nothing more is read. -/
theorem recv_line_loop_full (l : List Char) (h : ∀ c ∈ l, c ≠ '\n') (buf rest : List Char) :
    recv_line_loop l.length buf (l ++ rest) = ⟨(buf ++ l).length, buf ++ l, rest⟩ := by
  induction l generalizing buf with
  | nil => simp [recv_line_loop]
  | cons a l ih =>
    have ha : a ≠ '\n' := h a (List.mem_cons_self _ _)
    simp only [List.length_cons, List.cons_append, recv_line_loop, recv_byte, if_neg ha]
    rw [ih (fun c hc => h c (List.mem_cons_of_mem _ hc)) (buf ++ [a])]
    simp

/-- A line of at most 1022 bytes is returned in full by one call. -/
theorem recv_line_short (l rest : List Char) (h : ∀ c ∈ l, c ≠ '\n') (hlen : l.length ≤ 1022) :
    recv_line (l ++ '\n' :: rest) BUFFER_SIZE = ⟨l.length, l, rest⟩ := by
  unfold recv_line
  rw [recv_line_loop_line l h _ [] rest (by simp only [BUFFER_SIZE]; omega)]
  simp

/-- The first 1023 bytes are returned when they hold no newline. -/
theorem recv_line_long (l rest : List Char) (h : ∀ c ∈ l, c ≠ '\n') (hlen : l.length = 1023) :
    recv_line (l ++ rest) BUFFER_SIZE = ⟨1023, l, rest⟩ := by
  unfold recv_line
  have hb : BUFFER_SIZE - 1 = l.length := by rw [hlen]; rfl
  rw [hb, recv_line_loop_full l h [] rest]
  simp [hlen]

/-- C9, amended: when the stream is made of lines of at most 1022 bytes, each
followed by a newline, successive calls of `recv_line` with the 1024-byte
buffer return these lines in order, one line per call, each in full and
without its newline, the value returned being its length; and a call on a
stream whose first 1023 bytes hold no newline returns exactly these 1023
bytes, the line cut at the room of the buffer. -/
theorem recv_line_successive (ls : List (List Char)) (rest : List Char)
    (hls : ∀ l ∈ ls, (∀ c ∈ l, c ≠ '\n') ∧ l.length ≤ 1022) :
    recv_lines ls.length ((ls.map (fun l => l ++ ['\n'])).flatten ++ rest)
        = ls.map (fun l => ((l.length : Int), l))
      ∧ ∀ l more : List Char, (∀ c ∈ l, c ≠ '\n') → l.length = 1023 →
          (recv_line (l ++ more) BUFFER_SIZE).n = 1023
            ∧ (recv_line (l ++ more) BUFFER_SIZE).buf = l := by
  constructor
  · induction ls with
    | nil => rfl
    | cons l ls ih =>
      obtain ⟨hl, hlen⟩ := hls l (List.mem_cons_self _ _)
      have hstream : ((l :: ls).map (fun l => l ++ ['\n'])).flatten ++ rest
          = l ++ '\n' :: ((ls.map (fun l => l ++ ['\n'])).flatten ++ rest) := by
        simp
      rw [hstream]
      simp only [List.length_cons, recv_lines, recv_line_short l _ hl hlen, List.map_cons]
      rw [ih (fun m hm => hls m (List.mem_cons_of_mem _ hm))]
  · intro l more hl hlen
    rw [recv_line_long l more hl hlen]
    exact ⟨rfl, rfl⟩

/-- C9, amended, for the stream `ls`, empty line, `pwd`, each with its newline. -/
theorem recv_line_successive_witness :
    recv_lines 3 ['l', 's', '\n', '\n', 'p', 'w', 'd', '\n', 'i', 'd']
        = [(2, ['l', 's']), (0, []), (3, ['p', 'w', 'd'])]
      ∧ ∀ l more : List Char, (∀ c ∈ l, c ≠ '\n') → l.length = 1023 →
          (recv_line (l ++ more) BUFFER_SIZE).n = 1023
            ∧ (recv_line (l ++ more) BUFFER_SIZE).buf = l :=
  recv_line_successive [['l', 's'], [], ['p', 'w', 'd']] ['i', 'd'] (by decide)

/-- The lines of the specification for a stream that starts with a line. -/
theorem spec_lines_from_line (limit : Nat) (l : List Char) (h : ∀ c ∈ l, c ≠ '\n')
    (line rest : List Char) :
    spec_lines_from limit line (l ++ '\n' :: rest)
      = (line ++ l).take limit :: spec_lines_from limit [] rest := by
  induction l generalizing line with
  | nil => simp [spec_lines_from]
  | cons a l ih =>
    have ha : a ≠ '\n' := h a (List.mem_cons_self _ _)
    have ih2 := ih (fun c hc => h c (List.mem_cons_of_mem _ hc)) (line ++ [a])
    simp only [List.cons_append, spec_lines_from, if_neg ha]
    show spec_lines_from limit (line ++ [a]) (l ++ '\n' :: rest) = _
    rw [ih2]
    simp

/-- C9, counterexample to the claim as stated: on the stream of one line of
1025 bytes `x`, the first call of `recv_line` returns the first 1023 bytes
and the second call returns the two bytes left of that line as a line of its
own, while the lines described are the one line cut to the limit (1024
bytes, or 1023). -/
theorem recv_line_splits_long_line :
    recv_lines 2 (List.replicate 1025 'x' ++ ['\n'])
        = [(1023, List.replicate 1023 'x'), (2, ['x', 'x'])]
      ∧ spec_lines 1024 (List.replicate 1025 'x' ++ ['\n']) = [List.replicate 1024 'x']
      ∧ spec_lines 1023 (List.replicate 1025 'x' ++ ['\n']) = [List.replicate 1023 'x']
      ∧ (recv_lines 2 (List.replicate 1025 'x' ++ ['\n'])).map Prod.snd
          ≠ spec_lines 1024 (List.replicate 1025 'x' ++ ['\n'])
      ∧ (recv_lines 2 (List.replicate 1025 'x' ++ ['\n'])).map Prod.snd
          ≠ spec_lines 1023 (List.replicate 1025 'x' ++ ['\n']) := by
  have hx : ∀ n, ∀ c ∈ List.replicate n 'x', c ≠ '\n' := by
    intro n c hc
    rw [List.eq_of_mem_replicate hc]
    decide
  have hsplit : List.replicate 1025 'x' ++ ['\n']
      = List.replicate 1023 'x' ++ (['x', 'x'] ++ '\n' :: []) := by
    rw [show (1025 : Nat) = 1023 + 2 from rfl, List.replicate_add, List.append_assoc]
    rfl
  have hcode : recv_lines 2 (List.replicate 1025 'x' ++ ['\n'])
      = [(1023, List.replicate 1023 'x'), (2, ['x', 'x'])] := by
    rw [hsplit]
    simp only [recv_lines, recv_line_long _ _ (hx 1023) (List.length_replicate _ _)]
    rw [recv_line_short ['x', 'x'] [] (by decide) (by decide)]
    rfl
  have hspec : ∀ limit, spec_lines limit (List.replicate 1025 'x' ++ ['\n'])
      = [List.replicate (min limit 1025) 'x'] := by
    intro limit
    unfold spec_lines
    rw [spec_lines_from_line limit _ (hx 1025) [] [], List.nil_append, List.take_replicate]
    rfl
  have h1024 : spec_lines 1024 (List.replicate 1025 'x' ++ ['\n']) = [List.replicate 1024 'x'] := by
    rw [hspec 1024, show min 1024 1025 = 1024 from by decide]
  have h1023 : spec_lines 1023 (List.replicate 1025 'x' ++ ['\n']) = [List.replicate 1023 'x'] := by
    rw [hspec 1023, show min 1023 1025 = 1023 from by decide]
  refine ⟨hcode, h1024, h1023, ?_, ?_⟩
  · rw [hcode, h1024]
    intro h
    have := congrArg List.length h
    simp only [List.map_cons, List.map_nil, List.length_cons, List.length_nil] at this
    omega
  · rw [hcode, h1023]
    intro h
    have := congrArg List.length h
    simp only [List.map_cons, List.map_nil, List.length_cons, List.length_nil] at this
    omega

/-! ## The empty line -/

/-- C10, the code at the failing input: the operator line `all ` makes the
coordinator send the empty line to the agent; on the stream that starts with
this empty line the one `recv` made returns a byte, `recv_line` returns `0`
and the command read loop is left as on a closed connection, with the
commands that follow unread. -/
theorem empty_line_disconnects :
    step { Server.init with clients := [⟨10, 1, 3, ['b', 'o', 'b']⟩], next_id := 2 }
        (Event.operator ['a', 'l', 'l', ' ', '\n'])
      = some { Server.init with
          clients := [⟨10, 1, 3, ['b', 'o', 'b']⟩], next_id := 2, sent := [(3, ['\n'])] }
      ∧ recv_byte ['\n', 'l', 's', '\n'] = some ('\n', ['l', 's', '\n'])
      ∧ recv_line ['\n', 'l', 's', '\n'] BUFFER_SIZE = ⟨0, [], ['l', 's', '\n']⟩
      ∧ client_main ['\n', 'l', 's', '\n'] = ⟨[], Leave.disconnected, ['l', 's', '\n']⟩
      ∧ ∀ rest, client_main ('\n' :: rest) = ⟨[], Leave.disconnected, rest⟩ := by
  refine ⟨by decide, by decide, by decide, by decide, ?_⟩
  intro rest
  have h : recv_line ('\n' :: rest) BUFFER_SIZE = ⟨0, [], rest⟩ := by
    simp [recv_line, BUFFER_SIZE, recv_line_loop, recv_byte]
  simp [client_main, client_main_loop, h]

/-! ## Every line that fits the buffer is read, and the agent's loop ends -/

/-- The call `fgets` on input that starts with a line shorter than the room
of the buffer stores the line with its newline. -/
theorem fgets_loop_line (l : List Char) (h : ∀ c ∈ l, c ≠ '\n') (n : Nat) (rest : List Char)
    (hn : l.length < n) : fgets_loop n (l ++ '\n' :: rest) = (l ++ ['\n'], rest) := by
  induction l generalizing n with
  | nil =>
    obtain ⟨j, rfl⟩ : ∃ j, n = j + 1 := ⟨n - 1, by simp at hn; omega⟩
    simp [fgets_loop]
  | cons a l ih =>
    obtain ⟨j, rfl⟩ : ∃ j, n = j + 1 := ⟨n - 1, by simp at hn; omega⟩
    have ha : a ≠ '\n' := h a (List.mem_cons_self _ _)
    have ih2 := ih (fun c hc => h c (List.mem_cons_of_mem _ hc)) j (by simp at hn; omega)
    simp only [List.cons_append, fgets_loop, if_neg ha]
    have ih3 : fgets_loop j (l.append ('\n' :: rest)) = (l ++ ['\n'], rest) := ih2
    rw [ih3]

/-- Every string without newline and NUL of at most 1023 bytes is a line of
the command loop: it is the line read when the operator enters it. -/
theorem read_line_complete (l rest : List Char) (h : ∀ c ∈ l, c ≠ '\n' ∧ c ≠ NUL)
    (hlen : l.length ≤ 1023) : read_line (l ++ '\n' :: rest) = some l := by
  by_cases hfull : l.length = 1023
  · exact read_line_full l _ h hfull
  · have hne : l ++ '\n' :: rest ≠ [] := by simp
    unfold read_line fgets
    rw [if_neg hne, fgets_loop_line l (fun c hc => (h c hc).1) _ rest
      (by simp only [BUFFER_SIZE]; omega)]
    simp only [Option.map_some', strcspn_cut]
    have hnul : ∀ c ∈ l ++ ['\n'], c ≠ NUL := by
      intro c hc
      rcases List.mem_append.mp hc with hc | hc
      · exact (h c hc).2
      · simp at hc; subst hc; decide
    rw [cstr_eq_self _ hnul, takeWhile_line l [] ['\n'] '\n' (by
      intro c hc
      have := (h c hc).1
      simp [this]) (by decide)]

/-- What a call of `recv_line` takes from the stream: the value returned is
`0` or the number of bytes stored, and the bytes stored have left the
stream. -/
theorem recv_line_loop_consumes (k : Nat) (buf s : List Char) :
    ((recv_line_loop k buf s).n = 0 ∨ (recv_line_loop k buf s).n = (recv_line_loop k buf s).buf.length)
      ∧ (recv_line_loop k buf s).rest.length + (recv_line_loop k buf s).buf.length
          ≤ s.length + buf.length := by
  induction k generalizing buf s with
  | zero => simp [recv_line_loop]
  | succ k ih =>
    cases s with
    | nil => simp [recv_line_loop, recv_byte]
    | cons c s =>
      simp only [recv_line_loop, recv_byte]
      split
      · simp
      · have := ih (buf ++ [c]) s
        simp only [List.length_append, List.length_cons, List.length_nil] at this ⊢
        exact ⟨this.1, by omega⟩

/-- A call of `recv_line` that returns a positive value has taken at least
one byte from the stream. -/
theorem recv_line_progress (s : List Char) (maxlen : Nat) (h : 0 < (recv_line s maxlen).n) :
    (recv_line s maxlen).rest.length < s.length := by
  unfold recv_line at h ⊢
  have := recv_line_loop_consumes (maxlen - 1) [] s
  simp only [List.length_nil, Nat.add_zero] at this
  obtain ⟨h1, h2⟩ := this
  rcases h1 with h1 | h1
  · omega
  · rw [h1] at h
    have : 0 < (recv_line_loop (maxlen - 1) [] s).buf.length := by exact_mod_cast h
    omega

/-- The command read loop ends within the rounds counted. -/
theorem client_main_loop_ends (fuel : Nat) (s : List Char) (cmds : List (List Char))
    (h : s.length < fuel) : (client_main_loop fuel s cmds).leave ≠ Leave.reading := by
  induction fuel generalizing s cmds with
  | zero => omega
  | succ fuel ih =>
    unfold client_main_loop
    split
    · simp
    · split
      · simp
      · rename_i hn _
        have := recv_line_progress s BUFFER_SIZE (by omega)
        exact ih _ _ (by omega)

/-- The command read loop of the agent ends on every stream: on a read that
brings nothing, or on the line `exit`. -/
theorem client_main_ends (s : List Char) :
    (client_main s).leave = Leave.disconnected ∨ (client_main s).leave = Leave.exited := by
  have := client_main_loop_ends (s.length + 1) s [] (by omega)
  unfold client_main
  cases h : (client_main_loop (s.length + 1) s []).leave with
  | disconnected => exact Or.inl rfl
  | exited => exact Or.inr rfl
  | reading => exact absurd h this

/-! ## The directive `all` -/

/-- The input `fgets` leaves after a line that fits the buffer: what follows
the newline, or the newline too when the line fills the buffer. -/
theorem fgets_line_rest (l more : List Char) (h : ∀ c ∈ l, c ≠ '\n') (hlen : l.length ≤ 1023) :
    ∃ r, fgets BUFFER_SIZE (l ++ '\n' :: more) = some r
      ∧ (r.2 = more ∨ r.2 = '\n' :: more) := by
  have hne : l ++ '\n' :: more ≠ [] := by simp
  unfold fgets
  rw [if_neg hne]
  by_cases hfull : l.length = 1023
  · have hb : BUFFER_SIZE - 1 = l.length := by rw [hfull]; rfl
    rw [hb, fgets_loop_full l _ h]
    exact ⟨_, rfl, Or.inr rfl⟩
  · rw [fgets_loop_line l h _ more (by simp only [BUFFER_SIZE]; omega)]
    exact ⟨_, rfl, Or.inl rfl⟩

/-- C4, amended: for every state of the registry and of the cursor and every
text `rest` (no newline, no NUL) of at most 1019 bytes, so that the line
`all <rest>` fits the input buffer, the command loop reads the operator line
`all <rest>` as one line, sends the one message `<rest>\n` to each registered
agent, one `send` per record and nothing else, and leaves the registry and
the cursor as they were; the input left for the next round is what follows
the line, after at most its bare newline. -/
theorem all_directive_broadcast (s : Server) (rest more : List Char)
    (hrest : ∀ c ∈ rest, c ≠ '\n' ∧ c ≠ NUL) (hlen : rest.length ≤ 1019) :
    read_line (['a', 'l', 'l', ' '] ++ rest ++ '\n' :: more) = some (['a', 'l', 'l', ' '] ++ rest)
      ∧ (∃ t, main_iter s (['a', 'l', 'l', ' '] ++ rest ++ '\n' :: more) = some t
          ∧ t.sent = s.sent ++ s.clients.map (fun c => (c.sock, rest ++ ['\n']))
          ∧ t.clients = s.clients ∧ t.current = s.current
          ∧ t = { s with sent := s.sent ++ s.clients.map (fun c => (c.sock, rest ++ ['\n'])) })
      ∧ (∃ r, fgets BUFFER_SIZE (['a', 'l', 'l', ' '] ++ rest ++ '\n' :: more) = some r
          ∧ (r.2 = more ∨ r.2 = '\n' :: more)) := by
  have hall : ∀ c ∈ ['a', 'l', 'l', ' '] ++ rest, c ≠ '\n' ∧ c ≠ NUL := by
    intro c hc
    have hd : ∀ c ∈ ['a', 'l', 'l', ' '], c ≠ '\n' ∧ c ≠ NUL := by decide
    rcases List.mem_append.mp hc with h | h
    · exact hd c h
    · exact hrest c h
  have hl : (['a', 'l', 'l', ' '] ++ rest).length ≤ 1023 := by
    simp only [List.length_append, List.length_cons, List.length_nil]
    omega
  have hread := read_line_complete (['a', 'l', 'l', ' '] ++ rest) more hall hl
  exact ⟨hread, main_iter_all s _ rest hread,
    fgets_line_rest _ more (fun c hc => (hall c hc).1) hl⟩

/-- C4, amended, for `all ls` with two agents connected and the second one
selected. -/
theorem all_directive_broadcast_witness :
    read_line (['a', 'l', 'l', ' '] ++ ['l', 's'] ++ '\n' :: ['i', 'd', '\n'])
        = some (['a', 'l', 'l', ' '] ++ ['l', 's'])
      ∧ (∃ t, main_iter
            { Server.init with
              clients := [⟨11, 2, 4, ['b', 'o', 'b']⟩, ⟨10, 1, 3, ['a', 'n', 'n']⟩],
              current := some 10, next_id := 3 }
            (['a', 'l', 'l', ' '] ++ ['l', 's'] ++ '\n' :: ['i', 'd', '\n']) = some t
          ∧ t.sent = [(4, ['l', 's', '\n']), (3, ['l', 's', '\n'])]
          ∧ t.clients = [⟨11, 2, 4, ['b', 'o', 'b']⟩, ⟨10, 1, 3, ['a', 'n', 'n']⟩]
          ∧ t.current = some 10
          ∧ t = { Server.init with
              clients := [⟨11, 2, 4, ['b', 'o', 'b']⟩, ⟨10, 1, 3, ['a', 'n', 'n']⟩],
              current := some 10, next_id := 3,
              sent := [(4, ['l', 's', '\n']), (3, ['l', 's', '\n'])] })
      ∧ (∃ r, fgets BUFFER_SIZE (['a', 'l', 'l', ' '] ++ ['l', 's'] ++ '\n' :: ['i', 'd', '\n'])
            = some r
          ∧ (r.2 = ['i', 'd', '\n'] ∨ r.2 = '\n' :: ['i', 'd', '\n'])) :=
  all_directive_broadcast
    { Server.init with
      clients := [⟨11, 2, 4, ['b', 'o', 'b']⟩, ⟨10, 1, 3, ['a', 'n', 'n']⟩],
      current := some 10, next_id := 3 }
    ['l', 's'] ['i', 'd', '\n'] (by decide) (by decide)

/-- Two rounds of the command loop, the second on the input the first one
leaves. -/
theorem main_rounds_two (s t u : Server) (inp l rest : List Char) (hrun : s.running = true)
    (h1 : main_iter s inp = some t) (hf : fgets BUFFER_SIZE inp = some (l, rest))
    (hrun2 : t.running = true) (h2 : main_iter t rest = some u) :
    main_rounds 2 s inp = some u := by
  simp [main_rounds, hrun, h1, hf, hrun2, h2]

/-- C4, counterexample to the claim as stated: with one agent connected and
no selection, the operator line `all ` followed by 1020 bytes `x` is read as
the line `all ` with 1019 bytes `x`; the message broadcast is these 1019
bytes and a newline, not the 1020 bytes of the rest, and the next round reads
the byte `x` left over as a line of its own, selects the agent and sends it
`x` as a command. -/
theorem all_directive_long_rest :
    read_line (['a', 'l', 'l', ' '] ++ List.replicate 1020 'x' ++ ['\n'])
        = some (['a', 'l', 'l', ' '] ++ List.replicate 1019 'x')
      ∧ main_iter { Server.init with clients := [⟨10, 1, 3, ['b', 'o', 'b']⟩], next_id := 2 }
          (['a', 'l', 'l', ' '] ++ List.replicate 1020 'x' ++ ['\n'])
        = some { Server.init with
            clients := [⟨10, 1, 3, ['b', 'o', 'b']⟩], next_id := 2,
            sent := [(3, List.replicate 1019 'x' ++ ['\n'])] }
      ∧ List.replicate 1019 'x' ++ ['\n'] ≠ List.replicate 1020 'x' ++ ['\n']
      ∧ main_rounds 2 { Server.init with clients := [⟨10, 1, 3, ['b', 'o', 'b']⟩], next_id := 2 }
          (['a', 'l', 'l', ' '] ++ List.replicate 1020 'x' ++ ['\n'])
        = some { Server.init with
            clients := [⟨10, 1, 3, ['b', 'o', 'b']⟩], next_id := 2,
            current := some 10,
            sent := [(3, List.replicate 1019 'x' ++ ['\n']), (3, ['x', '\n'])] } := by
  have hx : ∀ c ∈ ['a', 'l', 'l', ' '] ++ List.replicate 1019 'x', c ≠ '\n' ∧ c ≠ NUL := by
    intro c hc
    have hd : ∀ c ∈ ['a', 'l', 'l', ' '], c ≠ '\n' ∧ c ≠ NUL := by decide
    rcases List.mem_append.mp hc with h | h
    · exact hd c h
    · rw [List.eq_of_mem_replicate h]
      decide
  have hlen : (['a', 'l', 'l', ' '] ++ List.replicate 1019 'x').length = 1023 := by
    rw [List.length_append, List.length_replicate]
    rfl
  have hsplit : ['a', 'l', 'l', ' '] ++ List.replicate 1020 'x' ++ ['\n']
      = (['a', 'l', 'l', ' '] ++ List.replicate 1019 'x') ++ ['x', '\n'] := by
    rw [show (1020 : Nat) = 1019 + 1 from rfl, List.replicate_add, List.append_assoc,
      List.append_assoc, List.append_assoc]
    rfl
  have hread : read_line (['a', 'l', 'l', ' '] ++ List.replicate 1020 'x' ++ ['\n'])
      = some (['a', 'l', 'l', ' '] ++ List.replicate 1019 'x') := by
    rw [hsplit]
    exact read_line_full _ _ hx hlen
  have hfgets : fgets BUFFER_SIZE (['a', 'l', 'l', ' '] ++ List.replicate 1020 'x' ++ ['\n'])
      = some (['a', 'l', 'l', ' '] ++ List.replicate 1019 'x', ['x', '\n']) := by
    rw [hsplit]
    unfold fgets
    rw [if_neg (by
      intro h0
      have := congrArg List.length h0
      rw [List.length_append, hlen] at this
      simp at this)]
    have hb : BUFFER_SIZE - 1 = (['a', 'l', 'l', ' '] ++ List.replicate 1019 'x').length := by
      rw [hlen]
      rfl
    rw [hb, fgets_loop_full _ _ (fun c hc => (hx c hc).1)]
  obtain ⟨t, ht, -, -, -, htv⟩ :=
    main_iter_all { Server.init with clients := [⟨10, 1, 3, ['b', 'o', 'b']⟩], next_id := 2 }
      _ (List.replicate 1019 'x') hread
  have hround : main_iter
      { Server.init with clients := [⟨10, 1, 3, ['b', 'o', 'b']⟩], next_id := 2 }
      (['a', 'l', 'l', ' '] ++ List.replicate 1020 'x' ++ ['\n'])
      = some { Server.init with
          clients := [⟨10, 1, 3, ['b', 'o', 'b']⟩], next_id := 2,
          sent := [(3, List.replicate 1019 'x' ++ ['\n'])] } := by
    rw [ht, htv]
    rfl
  have hnext : main_iter
      { Server.init with
        clients := [⟨10, 1, 3, ['b', 'o', 'b']⟩], next_id := 2,
        sent := [(3, List.replicate 1019 'x' ++ ['\n'])] } ['x', '\n']
      = some { Server.init with
          clients := [⟨10, 1, 3, ['b', 'o', 'b']⟩], next_id := 2,
          current := some 10,
          sent := [(3, List.replicate 1019 'x' ++ ['\n']), (3, ['x', '\n'])] } := by
    have hr : read_line ['x', '\n'] = some ['x'] := by decide
    have hm : snprintf_line BUFFER_SIZE ['x'] = ['x', '\n'] := by decide
    have hb := main_body_autoselect
      { Server.init with
        clients := [⟨10, 1, 3, ['b', 'o', 'b']⟩], next_id := 2,
        sent := [(3, List.replicate 1019 'x' ++ ['\n'])] }
      ⟨10, 1, 3, ['b', 'o', 'b']⟩ ['x'] (by decide) rfl rfl
    rw [hm] at hb
    simp only [main_iter, hr]
    exact hb
  refine ⟨hread, hround, ?_, ?_⟩
  · intro h
    have := congrArg List.length h
    simp only [List.length_append, List.length_replicate, List.length_cons,
      List.length_nil] at this
    omega
  · have hrun : ({ Server.init with clients := [⟨10, 1, 3, ['b', 'o', 'b']⟩], next_id := 2 }
        : Server).running = true := rfl
    have hrun2 : ({ Server.init with
        clients := [⟨10, 1, 3, ['b', 'o', 'b']⟩], next_id := 2,
        sent := [(3, List.replicate 1019 'x' ++ ['\n'])] } : Server).running = true := rfl
    exact main_rounds_two _ _ _ _ _ _ hrun hround hfgets hrun2 hnext

end Leech
